import Mathlib

/-!
Verification development for the variable-elimination inference engine
(ordering, elimination-tree, junction-tree / Bayes-tree machinery and the
hybrid conditional wrapper) of this repository.

The symbolic and numeric elimination machinery is embedded as executable
Lean definitions; the `HybridConditional` dispatch functions are embedded
from `HybridConditional.cpp`.
-/

/-- A variable identifier: an opaque integer, unique within a graph. -/
abbrev Key := Nat

/-- A symbolic factor: the set of keys it involves. -/
abbrev SFactor := Finset Key

/-- Modelled from the spec: the joint key set gathered at an elimination
step, i.e. the union of the key sets of all active factors touching the
variable `v` (the per-node combine of section 4.3; the implementation of
the elimination core is not under `src/`). -/
def jointOf (fs : List SFactor) (v : Key) : Finset Key :=
  ((fs.filter fun f => decide (v ∈ f)).foldr (· ∪ ·) ∅)

/-- Modelled from the spec: a single symbolic elimination step. All
factors touching `v` are combined; the separator is the combined key set
minus `v`; a new separator factor is appended to the remaining factors
(section 4.3 / 4.4; the elimination core is not under `src/`). -/
def symElimStep (fs : List SFactor) (v : Key) : Finset Key × List SFactor :=
  let sep := (jointOf fs v).erase v
  (sep, (fs.filter fun f => decide (v ∉ f)) ++ [sep])

/-- Modelled from the spec: sequential symbolic elimination along an
ordering, recording for each eliminated variable its separator key set
(section 4.5; the elimination core is not under `src/`). -/
def symElim : List Key → List SFactor → List (Key × Finset Key)
  | [], _ => []
  | v :: ord, fs =>
    let r := symElimStep fs v
    (v, r.1) :: symElim ord r.2

theorem symElim_map_fst (ord : List Key) (fs : List SFactor) :
    (symElim ord fs).map Prod.fst = ord := by
  induction ord generalizing fs with
  | nil => rfl
  | cons v ord ih => simp [symElim, ih]

theorem subset_foldr_union {f : SFactor} {l : List SFactor} (h : f ∈ l) :
    f ⊆ l.foldr (· ∪ ·) ∅ := by
  induction l with
  | nil => cases h
  | cons g l ih =>
    rcases List.mem_cons.mp h with rfl | h
    · exact Finset.subset_union_left
    · exact (ih h).trans Finset.subset_union_right

theorem assoc_unique {α β : Type} [DecidableEq α] {l : List (α × β)}
    (h : (l.map Prod.fst).Nodup) {a : α} {b b' : β}
    (h1 : (a, b) ∈ l) (h2 : (a, b') ∈ l) : b = b' := by
  induction l with
  | nil => cases h1
  | cons x l ih =>
    rw [List.map_cons, List.nodup_cons] at h
    cases h1 with
    | head =>
      cases h2 with
      | head => rfl
      | tail _ h2t =>
        exact absurd (List.mem_map.mpr ⟨(a, b'), h2t, rfl⟩) h.1
    | tail _ h1t =>
      cases h2 with
      | head =>
        exact absurd (List.mem_map.mpr ⟨(a, b), h1t, rfl⟩) h.1
      | tail _ h2t => exact ih h.2 h1t h2t

theorem symElim_find_sep (ord : List Key) (fs : List SFactor) (f : SFactor)
    (p : Key) (hf : f ∈ fs)
    (hp : ord.find? (fun u => decide (u ∈ f)) = some p) :
    ∃ s, (p, s) ∈ symElim ord fs ∧ f.erase p ⊆ s := by
  induction ord generalizing fs with
  | nil => cases hp
  | cons v ord ih =>
    by_cases hv : v ∈ f
    · rw [List.find?_cons_of_pos _ (by simpa using hv)] at hp
      obtain rfl : v = p := by injection hp
      refine ⟨((jointOf fs v).erase v), List.mem_cons_self _ _, ?_⟩
      refine Finset.erase_subset_erase _ ?_
      refine subset_foldr_union ?_
      exact List.mem_filter.mpr ⟨hf, by simpa using hv⟩
    · rw [List.find?_cons_of_neg _ (by simpa using hv)] at hp
      have hf' : f ∈ (fs.filter fun g => decide (v ∉ g)) ++
          [(jointOf fs v).erase v] :=
        List.mem_append_left _ (List.mem_filter.mpr ⟨hf, by simpa using hv⟩)
      obtain ⟨s, hmem, hsub⟩ := ih _ hf' hp
      exact ⟨s, List.mem_cons_of_mem _ hmem, hsub⟩

/-- Modelled from the spec: the parent of an elimination-tree node is the
next-to-be-eliminated variable among the keys of its separator, i.e. the
first later node whose key lies in the separator (section 4.3; the
elimination core is not under `src/`). -/
def parentIn (rest : List (Key × Finset Key)) (s : Finset Key) :
    Option (Key × Finset Key) :=
  rest.find? (fun n => decide (n.1 ∈ s))

/-- Modelled from the spec: the junction-tree absorb test.  A child node
is absorbed into its parent exactly when its separator coincides with the
parent node's frontal-plus-separator key set, the merge condition of
section 4.6 in the form consistent with the clique structure printed in
`gtsam/inference/doc/JunctionTree.ipynb` (the junction-tree code itself is
not under `src/`).  Returns the parent key when the node is absorbed. -/
def mergedTo (rest : List (Key × Finset Key)) (s : Finset Key) : Option Key :=
  match parentIn rest s with
  | some pn => if s = insert pn.1 pn.2 then some pn.1 else none
  | none => none

/-- Association-list lookup with a default value. -/
def lookupD (l : List (Key × Key)) (k d : Key) : Key :=
  match l.find? (fun x => decide (x.1 = k)) with
  | some x => x.2
  | none => d

/-- The cluster key a node is assigned to: the already-computed cluster of
its absorbing parent when the node is absorbed, the node's own key
otherwise. -/
def topTarget (ts : List (Key × Key)) : Option Key → Key → Key
  | some pk, _ => lookupD ts pk pk
  | none, v => v

/-- Modelled from the spec: assigns to every elimination-tree node the key
of the topmost node of the cluster that absorbs it (section 4.6; the
junction-tree code is not under `src/`). -/
def topAssign : List (Key × Finset Key) → List (Key × Key)
  | [] => []
  | n :: rest =>
    (n.1, topTarget (topAssign rest) (mergedTo rest n.2) n.1) :: topAssign rest

/-- A clique of the Bayes tree produced by multifrontal elimination. -/
structure SClique where
  top : Key
  frontals : Finset Key
  sep : Finset Key
  parent : Option Key
deriving DecidableEq

/-- The frontal key set of the cluster whose topmost node is `t`. -/
def frontalsOf (ts : List (Key × Key)) (t : Key) : Finset Key :=
  ((ts.filter fun x => decide (x.2 = t)).map Prod.fst).toFinset

/-- Modelled from the spec: builds the clique list of the Bayes tree from
the elimination-tree node list and the cluster assignment: every
unabsorbed node yields one clique whose frontals are all keys assigned to
it, whose separator is the node's separator, and whose parent is the
cluster of the node's elimination-tree parent (section 4.6; the
junction-tree code is not under `src/`). -/
def cliqueBuild (ts : List (Key × Key)) :
    List (Key × Finset Key) → List SClique
  | [] => []
  | n :: rest =>
    (if mergedTo rest n.2 = none then
      [⟨n.1, frontalsOf ts n.1, n.2,
        (parentIn rest n.2).map fun pn => lookupD ts pn.1 pn.1⟩]
     else []) ++ cliqueBuild ts rest

/-- Modelled from the spec: multifrontal elimination of a symbolic factor
graph along an ordering, producing the cliques of the Bayes tree
(sections 4.3-4.6; the elimination core is not under `src/`). -/
def cliquesOf (ord : List Key) (fs : List SFactor) : List SClique :=
  let nodes := symElim ord fs
  cliqueBuild (topAssign nodes) nodes

/-- Running-intersection property of the elimination-tree node list: each
node's separator is contained in its parent node's key together with the
parent's separator. -/
def NodesGood : List (Key × Finset Key) → Prop
  | [] => True
  | n :: rest =>
    (∀ pn, parentIn rest n.2 = some pn → n.2 ⊆ insert pn.1 pn.2) ∧
    NodesGood rest

theorem parentIn_ord_find {nodes : List (Key × Finset Key)} {s : Finset Key}
    {pn : Key × Finset Key} (h : parentIn nodes s = some pn) :
    (nodes.map Prod.fst).find? (fun u => decide (u ∈ s)) = some pn.1 := by
  rw [List.find?_map]
  show ((nodes.find? ((fun u => decide (u ∈ s)) ∘ Prod.fst)).map Prod.fst) =
    some pn.1
  have heq : (fun u => decide (u ∈ s)) ∘ Prod.fst =
      (fun n : Key × Finset Key => decide (n.1 ∈ s)) := rfl
  unfold parentIn at h
  rw [heq, h]
  rfl

theorem nodesGood_symElim (ord : List Key) (fs : List SFactor)
    (hnd : ord.Nodup) : NodesGood (symElim ord fs) := by
  induction ord generalizing fs with
  | nil => trivial
  | cons v ord ih =>
    refine ⟨?_, ih _ (List.nodup_cons.mp hnd).2⟩
    intro pn hpn
    set s := (jointOf fs v).erase v with hs
    set fs' := (fs.filter fun f => decide (v ∉ f)) ++ [s] with hfs'
    have hmem : pn ∈ symElim ord fs' := List.mem_of_find?_eq_some hpn
    have hfind : ord.find? (fun u => decide (u ∈ s)) = some pn.1 := by
      have := parentIn_ord_find hpn
      rwa [symElim_map_fst] at this
    have hself : s ∈ fs' := List.mem_append_right _ (List.mem_singleton.mpr rfl)
    obtain ⟨s', hmem', hsub⟩ := symElim_find_sep ord fs' s pn.1 hself hfind
    have hnodup : ((symElim ord fs').map Prod.fst).Nodup := by
      rw [symElim_map_fst]; exact (List.nodup_cons.mp hnd).2
    have heq : s' = pn.2 := by
      have h2 : (pn.1, pn.2) ∈ symElim ord fs' := hmem
      exact assoc_unique hnodup hmem' h2
    intro x hx
    by_cases hxp : x = pn.1
    · subst hxp; exact Finset.mem_insert_self _ _
    · refine Finset.mem_insert_of_mem ?_
      rw [← heq]
      exact hsub (Finset.mem_erase.mpr ⟨hxp, hx⟩)

theorem nodesGood_elim (pre : List (Key × Finset Key)) (n : Key × Finset Key)
    (post : List (Key × Finset Key)) (h : NodesGood (pre ++ n :: post)) :
    ∀ pn, parentIn post n.2 = some pn → n.2 ⊆ insert pn.1 pn.2 := by
  induction pre with
  | nil => exact h.1
  | cons x pre ih => exact ih h.2

theorem topAssign_map_fst (l : List (Key × Finset Key)) :
    (topAssign l).map Prod.fst = l.map Prod.fst := by
  induction l with
  | nil => rfl
  | cons n rest ih => simp [topAssign, ih]

theorem lookupD_cons_self (v t d : Key) (ts : List (Key × Key)) :
    lookupD ((v, t) :: ts) v d = t := by
  simp [lookupD, List.find?_cons_of_pos]

theorem lookupD_cons_ne (v t k d : Key) (ts : List (Key × Key))
    (h : k ≠ v) : lookupD ((v, t) :: ts) k d = lookupD ts k d := by
  unfold lookupD
  rw [List.find?_cons_of_neg]
  simpa using fun hvk => h hvk.symm

theorem mem_frontalsOf {v t : Key} {ts : List (Key × Key)}
    (h : (v, t) ∈ ts) : v ∈ frontalsOf ts t := by
  unfold frontalsOf
  rw [List.mem_toFinset]
  exact List.mem_map.mpr ⟨(v, t), List.mem_filter.mpr ⟨h, by simp⟩, rfl⟩

theorem frontalsOf_cons_subset (x : Key × Key) (ts : List (Key × Key))
    (t : Key) : frontalsOf ts t ⊆ frontalsOf (x :: ts) t := by
  unfold frontalsOf
  intro a ha
  rw [List.mem_toFinset] at ha ⊢
  obtain ⟨p, hp, hpa⟩ := List.mem_map.mp ha
  refine List.mem_map.mpr ⟨p, ?_, hpa⟩
  rw [List.mem_filter] at hp ⊢
  exact ⟨List.mem_cons_of_mem _ hp.1, hp.2⟩

/-- Holds when `t` is an unabsorbed node with separator `s`, i.e. the
topmost node of an actual cluster. -/
def UnmergedInWith : List (Key × Finset Key) → Key → Finset Key → Prop
  | [], _, _ => False
  | n :: rest, t, s =>
    (n.1 = t ∧ n.2 = s ∧ mergedTo rest n.2 = none) ∨ UnmergedInWith rest t s

theorem parentIn_mem {rest : List (Key × Finset Key)} {s : Finset Key}
    {pn : Key × Finset Key} (h : parentIn rest s = some pn) : pn ∈ rest :=
  List.mem_of_find?_eq_some h

theorem mergedTo_spec {rest : List (Key × Finset Key)} {s : Finset Key}
    {pk : Key} (h : mergedTo rest s = some pk) :
    ∃ pn, parentIn rest s = some pn ∧ pn.1 = pk ∧ s = insert pn.1 pn.2 := by
  unfold mergedTo at h
  split at h
  next pn hp =>
    split at h
    next hc => exact ⟨pn, hp, by injection h, hc⟩
    next hc => cases h
  next hp => cases h

theorem topAssign_spec (nodes : List (Key × Finset Key))
    (hnd : (nodes.map Prod.fst).Nodup) :
    ∀ n ∈ nodes, ∃ t st,
      lookupD (topAssign nodes) n.1 n.1 = t ∧
      UnmergedInWith nodes t st ∧
      insert n.1 n.2 ⊆ frontalsOf (topAssign nodes) t ∪ st := by
  induction nodes with
  | nil => intro n hn; cases hn
  | cons m rest ih =>
    rw [List.map_cons, List.nodup_cons] at hnd
    intro n hn
    cases hn with
    | head =>
      rcases hm : mergedTo rest m.2 with _ | pk
      · refine ⟨m.1, m.2, ?_, Or.inl ⟨rfl, rfl, hm⟩, ?_⟩
        · rw [topAssign, hm]
          exact lookupD_cons_self _ _ _ _
        · intro x hx
          rcases Finset.mem_insert.mp hx with rfl | hx2
          · refine Finset.mem_union_left _ (mem_frontalsOf ?_)
            rw [topAssign, hm]
            exact List.mem_cons_self _ _
          · exact Finset.mem_union_right _ hx2
      · obtain ⟨pn, hpn, hpk, hins⟩ := mergedTo_spec hm
        obtain ⟨tp, stp, hl, hu, hsub⟩ := ih hnd.2 pn (parentIn_mem hpn)
        refine ⟨tp, stp, ?_, Or.inr hu, ?_⟩
        · rw [topAssign, hm]
          rw [lookupD_cons_self]
          show lookupD (topAssign rest) pk pk = tp
          rw [← hpk]
          exact hl
        · intro x hx
          rcases Finset.mem_insert.mp hx with rfl | hx2
          · refine Finset.mem_union_left _ (mem_frontalsOf ?_)
            rw [topAssign, hm]
            have : topTarget (topAssign rest) (some pk) m.1 = tp := by
              show lookupD (topAssign rest) pk pk = tp
              rw [← hpk]; exact hl
            rw [this]
            exact List.mem_cons_self _ _
          · rw [hins] at hx2
            rcases Finset.mem_union.mp (hsub hx2) with hx3 | hx3
            · refine Finset.mem_union_left _ ?_
              rw [topAssign]
              exact frontalsOf_cons_subset _ _ _ hx3
            · exact Finset.mem_union_right _ hx3
    | tail _ hnt =>
      have hne : n.1 ≠ m.1 := by
        intro hcontra
        exact hnd.1 (hcontra ▸ List.mem_map.mpr ⟨n, hnt, rfl⟩)
      obtain ⟨t, st, hl, hu, hsub⟩ := ih hnd.2 n hnt
      refine ⟨t, st, ?_, Or.inr hu, ?_⟩
      · rw [topAssign, lookupD_cons_ne _ _ _ _ _ hne]
        exact hl
      · intro x hx
        rcases Finset.mem_union.mp (hsub hx) with hx3 | hx3
        · refine Finset.mem_union_left _ ?_
          rw [topAssign]
          exact frontalsOf_cons_subset _ _ _ hx3
        · exact Finset.mem_union_right _ hx3

theorem unmergedInWith_mem {nodes : List (Key × Finset Key)} {t : Key}
    {s : Finset Key} (h : UnmergedInWith nodes t s) : (t, s) ∈ nodes := by
  induction nodes with
  | nil => cases h
  | cons n rest ih =>
    rcases h with ⟨h1, h2, _⟩ | h
    · have : n = (t, s) := Prod.ext h1 h2
      rw [← this]
      exact List.mem_cons_self _ _
    · exact List.mem_cons_of_mem _ (ih h)

theorem cliqueBuild_shape (ts : List (Key × Key))
    (nodes : List (Key × Finset Key)) :
    ∀ c ∈ cliqueBuild ts nodes,
    ∃ pre post, nodes = pre ++ (c.top, c.sep) :: post ∧
      c.frontals = frontalsOf ts c.top ∧
      mergedTo post c.sep = none ∧
      c.parent = (parentIn post c.sep).map fun pn => lookupD ts pn.1 pn.1 := by
  induction nodes with
  | nil => intro c hc; cases hc
  | cons n rest ih =>
    intro c hc
    rw [cliqueBuild] at hc
    rcases List.mem_append.mp hc with hc1 | hc2
    · by_cases hm : mergedTo rest n.2 = none
      · rw [if_pos hm] at hc1
        obtain rfl := List.mem_singleton.mp hc1
        exact ⟨[], rest, rfl, rfl, hm, rfl⟩
      · rw [if_neg hm] at hc1
        cases hc1
    · obtain ⟨pre, post, heq, h2, h3, h4⟩ := ih c hc2
      exact ⟨n :: pre, post, by rw [heq]; rfl, h2, h3, h4⟩

theorem cliqueBuild_of_unmerged (ts : List (Key × Key))
    (nodes : List (Key × Finset Key)) {t : Key} {s : Finset Key}
    (h : UnmergedInWith nodes t s) :
    ∃ c ∈ cliqueBuild ts nodes,
      c.top = t ∧ c.sep = s ∧ c.frontals = frontalsOf ts t := by
  induction nodes with
  | nil => cases h
  | cons n rest ih =>
    rcases h with ⟨h1, h2, h3⟩ | h
    · refine ⟨⟨n.1, frontalsOf ts n.1, n.2,
        (parentIn rest n.2).map fun pn => lookupD ts pn.1 pn.1⟩, ?_, h1, h2, ?_⟩
      · rw [cliqueBuild, if_pos h3]
        exact List.mem_append_left _ (List.mem_singleton.mpr rfl)
      · rw [h1]
    · obtain ⟨c, hc, hcs⟩ := ih h
      refine ⟨c, ?_, hcs⟩
      rw [cliqueBuild]
      exact List.mem_append_right _ hc

/-- The five-variable diamond factor graph of the worked example in
`gtsam/inference/doc/JunctionTree.ipynb`: keys 0,1,2 are the poses
x0,x1,x2 and keys 3,4 the landmarks l1,l2. -/
def diamondGraph : List SFactor :=
  [{0}, {0, 1}, {1, 2}, {3, 0}, {3, 1}, {4, 1}, {4, 2}]

/-- The COLAMD-equivalent elimination ordering x0, l1, x1, l2, x2 of the
worked example in the repository's inference documentation. -/
def diamondOrdering : List Key := [0, 3, 1, 4, 2]

/-- C1: for every Bayes tree constructed by multifrontal elimination from
any input factor graph along a duplicate-free ordering, every clique with
a parent has its separator contained in the union of the parent clique's
frontal and separator key sets (the running-intersection property); the
parent clique moreover exists. -/
theorem bayesTree_running_intersection (fs : List SFactor) (ord : List Key)
    (hnd : ord.Nodup) :
    ∀ c ∈ cliquesOf ord fs, ∀ t', c.parent = some t' →
      (∃ c' ∈ cliquesOf ord fs, c'.top = t') ∧
      ∀ c' ∈ cliquesOf ord fs, c'.top = t' →
        c.sep ⊆ c'.frontals ∪ c'.sep := by
  intro c hc t' hpar
  have hkeys : (symElim ord fs).map Prod.fst = ord := symElim_map_fst ord fs
  have hndk : ((symElim ord fs).map Prod.fst).Nodup := by rw [hkeys]; exact hnd
  obtain ⟨pre, post, hdec, hfr, hm, hp⟩ :=
    cliqueBuild_shape (topAssign (symElim ord fs)) (symElim ord fs) c hc
  rw [hpar] at hp
  obtain ⟨pn, hpn, hlk⟩ := (Option.map_eq_some'.mp hp.symm)
  have hpnmem : pn ∈ symElim ord fs := by
    rw [hdec]
    exact List.mem_append_right _ (List.mem_cons_of_mem _ (parentIn_mem hpn))
  have hsep : c.sep ⊆ insert pn.1 pn.2 := by
    have hng : NodesGood (symElim ord fs) := nodesGood_symElim ord fs hnd
    rw [hdec] at hng
    exact nodesGood_elim pre (c.top, c.sep) post hng pn hpn
  obtain ⟨tp, stp, hl, hu, hsub⟩ := topAssign_spec (symElim ord fs) hndk pn hpnmem
  have htp : t' = tp := by rw [← hlk, hl]
  constructor
  · obtain ⟨c'', hc''mem, hc''top, _, _⟩ :=
      cliqueBuild_of_unmerged (topAssign (symElim ord fs)) (symElim ord fs) hu
    exact ⟨c'', hc''mem, by rw [hc''top, htp]⟩
  · intro c' hc' hc'top
    obtain ⟨pre', post', hdec', hfr', _, _⟩ :=
      cliqueBuild_shape (topAssign (symElim ord fs)) (symElim ord fs) c' hc'
    have hmem1 : (c'.top, c'.sep) ∈ symElim ord fs := by
      rw [hdec']
      exact List.mem_append_right _ (List.mem_cons_self _ _)
    have hmem2 : (c'.top, stp) ∈ symElim ord fs := by
      rw [hc'top, htp]
      exact unmergedInWith_mem hu
    have hstp : c'.sep = stp := assoc_unique hndk hmem1 hmem2
    intro x hx
    have hx2 := hsub (hsep hx)
    rw [hfr', hc'top, htp, hstp]
    exact hx2

theorem bayesTree_running_intersection_witness :
    ((cliquesOf diamondOrdering diamondGraph).get ⟨0, by decide⟩).sep ⊆
      ((cliquesOf diamondOrdering diamondGraph).get ⟨1, by decide⟩).frontals ∪
      ((cliquesOf diamondOrdering diamondGraph).get ⟨1, by decide⟩).sep :=
  (bayesTree_running_intersection diamondGraph diamondOrdering (by decide)
      _ (List.get_mem _ 0 (by decide)) 2 (by decide)).2
      _ (List.get_mem _ 1 (by decide)) (by decide)

/-- C7: multifrontal elimination of the five-variable diamond factor
graph under the COLAMD-equivalent ordering produces a Bayes tree with
exactly two cliques whose root clique's frontal set is the set of the
last-eliminated variables x1, l2, x2. -/
theorem diamond_multifrontal_two_cliques :
    (cliquesOf diamondOrdering diamondGraph).length = 2 ∧
    ((cliquesOf diamondOrdering diamondGraph).get ⟨1, by decide⟩).parent
      = none ∧
    ((cliquesOf diamondOrdering diamondGraph).get ⟨1, by decide⟩).frontals
      = {1, 4, 2} ∧
    ∀ k ∈ diamondOrdering.drop 2,
      k ∈ ((cliquesOf diamondOrdering diamondGraph).get ⟨1, by decide⟩).frontals
    := by decide

/-- An assignment of (binary) values to all variables. -/
abbrev Assignment := Key → Bool

/-- Modelled from the spec: a discrete-family factor, carrying its key set
and its nonnegative table value at each assignment (section 3; the
concrete factor implementations are not under `src/`). -/
structure NFactor where
  keys : Finset Key
  val : Assignment → ℚ

/-- A factor's value depends only on the variables in its key set. -/
def SupportedOn (s : Finset Key) (g : Assignment → ℚ) : Prop :=
  ∀ x y : Assignment, (∀ k ∈ s, x k = y k) → g x = g y

/-- A well-formed factor: supported on its own key set. -/
def SupportedF (f : NFactor) : Prop := SupportedOn f.keys f.val

/-- A strictly positive factor (non-degenerate table). -/
def PositiveF (f : NFactor) : Prop := ∀ x, 0 < f.val x

/-- The product of the values of a list of factors at an assignment. -/
def prodVal (fs : List NFactor) (x : Assignment) : ℚ :=
  (fs.map (fun f => f.val x)).prod

/-- Sum of a function over all boolean choices for the given variables. -/
def sumOver : List Key → (Assignment → ℚ) → Assignment → ℚ
  | [], g, x => g x
  | v :: vs, g, x =>
    sumOver vs g (Function.update x v true) +
    sumOver vs g (Function.update x v false)

/-- Whether a factor touches one of the cluster's frontal variables. -/
def touchesC (f : NFactor) (vs : List Key) : Bool :=
  vs.any (fun v => decide (v ∈ f.keys))

/-- Modelled from the spec: the per-cluster elimination step (section
4.4; `EliminateDiscrete` is only declared, not implemented, under
`src/`).  All factors touching the frontal variables are combined into a
joint; the separator factor is its marginal over the frontals, the
conditional the ratio of joint and marginal; the remaining factors plus
the separator factor form the new active list. -/
def clusterStep (fs : List NFactor) (vs : List Key) :
    NFactor × NFactor × List NFactor :=
  let T := fs.filter (fun f => touchesC f vs)
  let R := fs.filter (fun f => !(touchesC f vs))
  let joint := (T.map NFactor.keys).foldr (· ∪ ·) ∅
  let m := sumOver vs (prodVal T)
  let cond : NFactor := ⟨joint, fun x => prodVal T x / m x⟩
  let sepF : NFactor := ⟨joint \ vs.toFinset, m⟩
  (cond, sepF, R ++ [sepF])

/-- Modelled from the spec: elimination of a factor list along a list of
clusters, returning the conditionals in elimination order together with
the final active factor list (sections 4.5 and 4.6; the elimination core
is not under `src/`).  Sequential elimination is the singleton grouping,
multifrontal elimination a coarser grouping of the same ordering. -/
def elimGrouped : List (List Key) → List NFactor → List NFactor × List NFactor
  | [], fs => ([], fs)
  | c :: cs, fs =>
    let r := clusterStep fs c
    let rest := elimGrouped cs r.2.2
    (r.1 :: rest.1, rest.2)

/-- The singleton grouping of an ordering: one variable per cluster
(sequential elimination). -/
def seqGroups (ord : List Key) : List (List Key) := ord.map (fun v => [v])

theorem prodVal_nil (x : Assignment) : prodVal [] x = 1 := rfl

theorem prodVal_cons (f : NFactor) (fs : List NFactor) (x : Assignment) :
    prodVal (f :: fs) x = f.val x * prodVal fs x := by
  simp [prodVal]

theorem prodVal_append (a b : List NFactor) (x : Assignment) :
    prodVal (a ++ b) x = prodVal a x * prodVal b x := by
  simp [prodVal]

theorem prodVal_filter_not (p : NFactor → Bool) (fs : List NFactor)
    (x : Assignment) :
    prodVal (fs.filter p) x * prodVal (fs.filter fun f => !(p f)) x =
      prodVal fs x := by
  induction fs with
  | nil => simp [prodVal]
  | cons f fs ih =>
    by_cases hp : p f
    · rw [List.filter_cons_of_pos hp, List.filter_cons_of_neg (by simp [hp]),
        prodVal_cons, prodVal_cons]
      rw [← ih]; ring
    · rw [List.filter_cons_of_neg (by simpa using hp),
        List.filter_cons_of_pos (by simpa using hp),
        prodVal_cons, prodVal_cons]
      rw [← ih]; ring

theorem prodVal_pos {fs : List NFactor} (hpos : ∀ f ∈ fs, PositiveF f)
    (x : Assignment) : 0 < prodVal fs x := by
  refine List.prod_pos ?_
  intro q hq
  obtain ⟨f, hf, rfl⟩ := List.mem_map.mp hq
  exact hpos f hf x

theorem sumOver_pos {g : Assignment → ℚ} (hg : ∀ x, 0 < g x) :
    ∀ (vs : List Key) (x : Assignment), 0 < sumOver vs g x := by
  intro vs
  induction vs with
  | nil => exact hg
  | cons v vs ih => intro x; exact add_pos (ih _) (ih _)

theorem sumOver_congr {g h : Assignment → ℚ} (hgh : ∀ x, g x = h x) :
    ∀ (vs : List Key) (x : Assignment), sumOver vs g x = sumOver vs h x := by
  intro vs
  induction vs with
  | nil => exact hgh
  | cons v vs ih => intro x; rw [sumOver, sumOver, ih, ih]

theorem sumOver_add (g h : Assignment → ℚ) :
    ∀ (vs : List Key) (x : Assignment),
      sumOver vs (fun y => g y + h y) x = sumOver vs g x + sumOver vs h x := by
  intro vs
  induction vs with
  | nil => intro x; rfl
  | cons v vs ih => intro x; rw [sumOver, sumOver, sumOver, ih, ih]; ring

theorem sumOver_update (g : Assignment → ℚ) (v : Key) (b : Bool) :
    ∀ (vs : List Key) (x : Assignment), v ∉ vs →
      sumOver vs g (Function.update x v b) =
      sumOver vs (fun y => g (Function.update y v b)) x := by
  intro vs
  induction vs with
  | nil => intro x _; rfl
  | cons w vs ih =>
    intro x hv
    have hvw : v ≠ w := fun hv2 => hv (hv2 ▸ List.mem_cons_self _ _)
    have hvvs : v ∉ vs := fun hv2 => hv (List.mem_cons_of_mem _ hv2)
    rw [sumOver, sumOver]
    rw [Function.update_comm hvw, Function.update_comm hvw]
    rw [ih _ hvvs, ih _ hvvs]

theorem sumOver_mul_indep (g h : Assignment → ℚ) :
    ∀ (vs : List Key) (x : Assignment),
      (∀ v ∈ vs, ∀ (y : Assignment) (b : Bool),
        h (Function.update y v b) = h y) →
      sumOver vs (fun y => g y * h y) x = sumOver vs g x * h x := by
  intro vs
  induction vs with
  | nil => intro x _; rfl
  | cons v vs ih =>
    intro x hind
    have hv := hind v (List.mem_cons_self _ _)
    have hvs : ∀ w ∈ vs, ∀ (y : Assignment) (b : Bool),
        h (Function.update y w b) = h y :=
      fun w hw => hind w (List.mem_cons_of_mem _ hw)
    rw [sumOver, sumOver, ih _ hvs, ih _ hvs, hv _ true, hv _ false]
    ring

theorem sumOver_append_swap (g : Assignment → ℚ) :
    ∀ (a b : List Key) (x : Assignment), (∀ v ∈ a, v ∉ b) →
      sumOver (a ++ b) g x = sumOver b (sumOver a g) x := by
  intro a
  induction a with
  | nil => intro b x _; rfl
  | cons v a ih =>
    intro b x hdisj
    have hvb : v ∉ b := hdisj v (List.mem_cons_self _ _)
    have hab : ∀ w ∈ a, w ∉ b := fun w hw => hdisj w (List.mem_cons_of_mem _ hw)
    show sumOver (a ++ b) g (Function.update x v true) +
        sumOver (a ++ b) g (Function.update x v false) = _
    rw [ih b _ hab, ih b _ hab]
    rw [sumOver_update _ _ _ _ _ hvb, sumOver_update _ _ _ _ _ hvb]
    rw [← sumOver_add]
    rfl

theorem exists_mem_of_mem_foldr_union {x : Key} {l : List SFactor}
    (h : x ∈ l.foldr (· ∪ ·) ∅) : ∃ s ∈ l, x ∈ s := by
  induction l with
  | nil => simp at h
  | cons s l ih =>
    rcases Finset.mem_union.mp h with h1 | h2
    · exact ⟨s, List.mem_cons_self _ _, h1⟩
    · obtain ⟨s', hs', hx⟩ := ih h2
      exact ⟨s', List.mem_cons_of_mem _ hs', hx⟩

theorem prodVal_supported {fs : List NFactor} {S : Finset Key}
    (hsup : ∀ f ∈ fs, SupportedF f) (hkeys : ∀ f ∈ fs, f.keys ⊆ S) :
    SupportedOn S (prodVal fs) := by
  induction fs with
  | nil => intro x y _; rfl
  | cons f fs ih =>
    intro x y hxy
    rw [prodVal_cons, prodVal_cons]
    have h1 : f.val x = f.val y :=
      hsup f (List.mem_cons_self _ _) x y
        (fun k hk => hxy k (hkeys f (List.mem_cons_self _ _) hk))
    have h2 : prodVal fs x = prodVal fs y :=
      ih (fun g hg => hsup g (List.mem_cons_of_mem _ hg))
        (fun g hg => hkeys g (List.mem_cons_of_mem _ hg)) x y hxy
    rw [h1, h2]

theorem supported_update {S : Finset Key} {g : Assignment → ℚ}
    (hg : SupportedOn S g) {v : Key} (hv : v ∉ S) (y : Assignment) (b : Bool) :
    g (Function.update y v b) = g y := by
  refine hg _ _ ?_
  intro k hk
  have : k ≠ v := fun hkv => hv (hkv ▸ hk)
  simp [Function.update, this]

theorem sumOver_supported {S : Finset Key} {g : Assignment → ℚ}
    (hg : SupportedOn S g) :
    ∀ vs : List Key, SupportedOn (S \ vs.toFinset) (sumOver vs g) := by
  intro vs
  induction vs generalizing S g with
  | nil =>
    intro x y hxy
    exact hg x y (fun k hk => hxy k (by simpa using hk))
  | cons v vs ih =>
    intro x y hxy
    rw [sumOver, sumOver]
    have hagree : ∀ (b : Bool) (k : Key), k ∈ S \ vs.toFinset →
        Function.update x v b k = Function.update y v b k := by
      intro b k hk
      by_cases hkv : k = v
      · subst hkv; simp [Function.update]
      · rw [Function.update_noteq hkv, Function.update_noteq hkv]
        refine hxy k ?_
        rw [Finset.mem_sdiff] at hk ⊢
        refine ⟨hk.1, ?_⟩
        intro hmem
        rcases List.mem_cons.mp (List.mem_toFinset.mp hmem) with h1 | h2
        · exact hkv h1
        · exact hk.2 (List.mem_toFinset.mpr h2)
    rw [ih hg _ _ (hagree true), ih hg _ _ (hagree false)]

theorem clusterStep_cond (fs : List NFactor) (vs : List Key) :
    (clusterStep fs vs).1 =
      ⟨((fs.filter fun f => touchesC f vs).map NFactor.keys).foldr (· ∪ ·) ∅,
       fun x => prodVal (fs.filter fun f => touchesC f vs) x /
         sumOver vs (prodVal (fs.filter fun f => touchesC f vs)) x⟩ := rfl

theorem clusterStep_sep (fs : List NFactor) (vs : List Key) :
    (clusterStep fs vs).2.1 =
      ⟨((fs.filter fun f => touchesC f vs).map NFactor.keys).foldr (· ∪ ·) ∅ \
         vs.toFinset,
       sumOver vs (prodVal (fs.filter fun f => touchesC f vs))⟩ := rfl

theorem clusterStep_active (fs : List NFactor) (vs : List Key) :
    (clusterStep fs vs).2.2 =
      (fs.filter fun f => !(touchesC f vs)) ++ [(clusterStep fs vs).2.1] := rfl

theorem clusterStep_m_pos (fs : List NFactor) (vs : List Key)
    (hpos : ∀ f ∈ fs, PositiveF f) (x : Assignment) :
    0 < sumOver vs (prodVal (fs.filter fun f => touchesC f vs)) x := by
  refine sumOver_pos ?_ vs x
  intro y
  refine prodVal_pos ?_ y
  intro g hg
  exact hpos g (List.mem_filter.mp hg).1

theorem clusterStep_inv (fs : List NFactor) (vs : List Key) (x : Assignment)
    (hm : sumOver vs (prodVal (fs.filter fun f => touchesC f vs)) x ≠ 0) :
    (clusterStep fs vs).1.val x * prodVal (clusterStep fs vs).2.2 x =
      prodVal fs x := by
  have hTR := prodVal_filter_not (fun f => touchesC f vs) fs x
  rw [clusterStep_active, prodVal_append, prodVal_cons, prodVal_nil,
    clusterStep_cond, clusterStep_sep]
  field_simp
  rw [← hTR]
  ring

theorem clusterStep_marginal (fs : List NFactor) (vs : List Key)
    (hsup : ∀ f ∈ fs, SupportedF f) (x : Assignment) :
    sumOver vs (prodVal fs) x = prodVal (clusterStep fs vs).2.2 x := by
  have hstep : ∀ y, prodVal fs y =
      prodVal (fs.filter fun f => touchesC f vs) y *
      prodVal (fs.filter fun f => !(touchesC f vs)) y :=
    fun y => (prodVal_filter_not (fun f => touchesC f vs) fs y).symm
  rw [sumOver_congr hstep]
  have hindep : ∀ v ∈ vs, ∀ (y : Assignment) (b : Bool),
      prodVal (fs.filter fun f => !(touchesC f vs)) (Function.update y v b) =
      prodVal (fs.filter fun f => !(touchesC f vs)) y := by
    intro v hv y b
    have hR : SupportedOn
        (((fs.filter fun f => !(touchesC f vs)).map NFactor.keys).foldr
          (· ∪ ·) ∅)
        (prodVal (fs.filter fun f => !(touchesC f vs))) := by
      refine prodVal_supported ?_ ?_
      · intro g hg; exact hsup g (List.mem_filter.mp hg).1
      · intro g hg; exact subset_foldr_union (List.mem_map.mpr ⟨g, hg, rfl⟩)
    refine supported_update hR ?_ y b
    intro hvS
    obtain ⟨s, hs, hvs'⟩ := exists_mem_of_mem_foldr_union hvS
    obtain ⟨g, hg, rfl⟩ := List.mem_map.mp hs
    have hgns := (List.mem_filter.mp hg).2
    have htouch : touchesC g vs = true :=
      List.any_eq_true.mpr ⟨v, hv, by simpa using hvs'⟩
    rw [htouch] at hgns
    cases hgns
  rw [sumOver_mul_indep _ _ vs x hindep]
  rw [clusterStep_active, prodVal_append, prodVal_cons, prodVal_nil,
    clusterStep_sep]
  ring

theorem clusterStep_preserve (fs : List NFactor) (vs : List Key)
    (hsup : ∀ f ∈ fs, SupportedF f) (hpos : ∀ f ∈ fs, PositiveF f) :
    ∀ f ∈ (clusterStep fs vs).2.2, SupportedF f ∧ PositiveF f := by
  intro f hf
  rw [clusterStep_active] at hf
  rcases List.mem_append.mp hf with h1 | h2
  · have hmem := (List.mem_filter.mp h1).1
    exact ⟨hsup f hmem, hpos f hmem⟩
  · obtain rfl := List.mem_singleton.mp h2
    constructor
    · show SupportedOn _ _
      rw [clusterStep_sep]
      refine sumOver_supported ?_ vs
      refine prodVal_supported ?_ ?_
      · intro g hg; exact hsup g (List.mem_filter.mp hg).1
      · intro g hg; exact subset_foldr_union (List.mem_map.mpr ⟨g, hg, rfl⟩)
    · intro x
      rw [clusterStep_sep]
      exact clusterStep_m_pos fs vs hpos x

theorem elimGrouped_cons (c : List Key) (cs : List (List Key))
    (fs : List NFactor) :
    elimGrouped (c :: cs) fs =
      ((clusterStep fs c).1 :: (elimGrouped cs (clusterStep fs c).2.2).1,
       (elimGrouped cs (clusterStep fs c).2.2).2) := rfl

theorem elimGrouped_spec (cs : List (List Key)) (fs : List NFactor)
    (hsup : ∀ f ∈ fs, SupportedF f) (hpos : ∀ f ∈ fs, PositiveF f)
    (hnd : cs.flatten.Nodup) :
    (∀ f ∈ (elimGrouped cs fs).2, SupportedF f ∧ PositiveF f) ∧
    (∀ x, prodVal (elimGrouped cs fs).1 x * prodVal (elimGrouped cs fs).2 x =
      prodVal fs x) ∧
    (∀ x, prodVal (elimGrouped cs fs).2 x =
      sumOver cs.flatten (prodVal fs) x) := by
  induction cs generalizing fs with
  | nil =>
    refine ⟨fun f hf => ⟨hsup f hf, hpos f hf⟩, fun x => ?_, fun x => rfl⟩
    rw [elimGrouped]
    show prodVal [] x * prodVal fs x = prodVal fs x
    rw [prodVal_nil, one_mul]
  | cons c cs ih =>
    have hflat : (c :: cs).flatten = c ++ cs.flatten := rfl
    rw [hflat] at hnd
    rw [List.nodup_append] at hnd
    obtain ⟨hndc, hndcs, hdisj⟩ := hnd
    have hpres := clusterStep_preserve fs c hsup hpos
    have hsup' : ∀ f ∈ (clusterStep fs c).2.2, SupportedF f :=
      fun f hf => (hpres f hf).1
    have hpos' : ∀ f ∈ (clusterStep fs c).2.2, PositiveF f :=
      fun f hf => (hpres f hf).2
    obtain ⟨ihp, ihinv, ihmarg⟩ := ih (clusterStep fs c).2.2 hsup' hpos' hndcs
    refine ⟨?_, ?_, ?_⟩
    · intro f hf
      rw [elimGrouped_cons] at hf
      exact ihp f hf
    · intro x
      rw [elimGrouped_cons]
      show (clusterStep fs c).1.val x *
          prodVal (elimGrouped cs (clusterStep fs c).2.2).1 x *
          prodVal (elimGrouped cs (clusterStep fs c).2.2).2 x = prodVal fs x
      rw [mul_assoc, ihinv x]
      refine clusterStep_inv fs c x ?_
      exact ne_of_gt (clusterStep_m_pos fs c hpos x)
    · intro x
      rw [elimGrouped_cons]
      show prodVal (elimGrouped cs (clusterStep fs c).2.2).2 x =
        sumOver (c :: cs).flatten (prodVal fs) x
      rw [ihmarg x, hflat]
      have hswap := sumOver_append_swap (prodVal fs) c cs.flatten x
        (fun v hv => hdisj hv)
      rw [hswap]
      exact sumOver_congr (fun y =>
        (clusterStep_marginal fs c hsup y).symm) cs.flatten x

theorem seqGroups_flatten (ord : List Key) : (seqGroups ord).flatten = ord := by
  induction ord with
  | nil => rfl
  | cons v ord ih => simp only [seqGroups, List.map_cons, List.flatten_cons]
                     rw [show (List.map (fun v => [v]) ord).flatten = ord from ih]
                     rfl

/-- C2: for a fixed elimination ordering (the concatenation of the
clusters), clustered (multifrontal) elimination and sequential
one-variable-at-a-time elimination of the same positive factor graph
produce conditionals whose product has, at every assignment, exactly the
same total log-probability. -/
theorem groupings_equal_logProbability (fs : List NFactor)
    (cs : List (List Key)) (hsup : ∀ f ∈ fs, SupportedF f)
    (hpos : ∀ f ∈ fs, PositiveF f) (hnd : cs.flatten.Nodup)
    (x : Assignment) :
    Real.log ((prodVal (elimGrouped cs fs).1 x : ℚ) : ℝ) =
      Real.log
        ((prodVal (elimGrouped (seqGroups cs.flatten) fs).1 x : ℚ) : ℝ) := by
  have hndseq : (seqGroups cs.flatten).flatten.Nodup := by
    rw [seqGroups_flatten]; exact hnd
  obtain ⟨_, hinv1, hmarg1⟩ := elimGrouped_spec cs fs hsup hpos hnd
  obtain ⟨_, hinv2, hmarg2⟩ :=
    elimGrouped_spec (seqGroups cs.flatten) fs hsup hpos hndseq
  have hZ : prodVal (elimGrouped cs fs).2 x =
      prodVal (elimGrouped (seqGroups cs.flatten) fs).2 x := by
    rw [hmarg1 x, hmarg2 x, seqGroups_flatten]
  have hZpos : 0 < prodVal (elimGrouped cs fs).2 x := by
    rw [hmarg1 x]
    exact sumOver_pos (fun y => prodVal_pos hpos y) _ x
  have hkey : prodVal (elimGrouped cs fs).1 x =
      prodVal (elimGrouped (seqGroups cs.flatten) fs).1 x := by
    have h2 := hinv2 x
    rw [← hZ] at h2
    exact mul_right_cancel₀ (ne_of_gt hZpos) ((hinv1 x).trans h2.symm)
  rw [hkey]

theorem groupings_equal_logProbability_witness :
    Real.log ((prodVal (elimGrouped [[0, 1]] [⟨{0}, fun _ => 1⟩]).1
        (fun _ => false) : ℚ) : ℝ) =
      Real.log ((prodVal (elimGrouped (seqGroups ([[0, 1]] : List (List Key)).flatten)
        [⟨{0}, fun _ => 1⟩]).1 (fun _ => false) : ℚ) : ℝ) :=
  groupings_equal_logProbability [⟨{0}, fun _ => 1⟩] [[0, 1]]
    (fun f hf => by
      cases List.mem_singleton.mp hf
      exact fun x y h => rfl)
    (fun f hf => by
      cases List.mem_singleton.mp hf
      exact fun x => one_pos)
    (by decide) (fun _ => false)

/-- C3: the pluggable per-cluster elimination step sends the factors on a
cluster and a non-empty frontal key set to a conditional over the frontal
and separator keys together with a separator factor whose keys are the
separator keys alone: no frontal key occurs in the returned separator
factor. -/
theorem eliminate_contract (fs : List NFactor) (vs : List Key)
    (hne : vs ≠ []) :
    (∀ k ∈ vs, k ∉ (clusterStep fs vs).2.1.keys) ∧
    (clusterStep fs vs).2.1.keys =
      (clusterStep fs vs).1.keys \ vs.toFinset ∧
    (clusterStep fs vs).1.keys ⊆
      vs.toFinset ∪ (clusterStep fs vs).2.1.keys := by
  refine ⟨?_, rfl, ?_⟩
  · intro k hk hmem
    rw [clusterStep_sep] at hmem
    exact (Finset.mem_sdiff.mp hmem).2 (List.mem_toFinset.mpr hk)
  · intro k hk
    by_cases hkv : k ∈ vs.toFinset
    · exact Finset.mem_union_left _ hkv
    · refine Finset.mem_union_right _ ?_
      rw [clusterStep_sep]
      rw [clusterStep_cond] at hk
      exact Finset.mem_sdiff.mpr ⟨hk, hkv⟩

theorem eliminate_contract_witness :
    (0 : Key) ∉ (clusterStep [⟨{0, 1}, fun _ => 1⟩] [0]).2.1.keys :=
  (eliminate_contract [⟨{0, 1}, fun _ => 1⟩] [0] (by decide)).1 0
    (by decide)

/-- The error kinds reported by the checked elimination step. -/
inductive ElimError
  | indeterminateSystem
deriving DecidableEq

/-- All assignments over the given variables (all other variables kept
false). -/
def allAssignments : List Key → List Assignment
  | [] => [fun _ => false]
  | v :: vs =>
    ((allAssignments vs).map fun a => Function.update a v true) ++
    ((allAssignments vs).map fun a => Function.update a v false)

theorem allAssignments_cover (l : List Key) (x : Assignment) :
    ∃ a ∈ allAssignments l, ∀ k ∈ l, a k = x k := by
  induction l with
  | nil =>
    exact ⟨fun _ => false, List.mem_singleton.mpr rfl, fun k hk => absurd hk
      (List.not_mem_nil k)⟩
  | cons v vs ih =>
    obtain ⟨a, ha, hagree⟩ := ih
    refine ⟨Function.update a v (x v), ?_, ?_⟩
    · rcases hxv : x v with _ | _
      · rw [allAssignments]
        exact List.mem_append_right _ (List.mem_map.mpr ⟨a, ha, rfl⟩)
      · rw [allAssignments]
        exact List.mem_append_left _ (List.mem_map.mpr ⟨a, ha, rfl⟩)
    · intro k hk
      by_cases hkv : k = v
      · subst hkv; rw [Function.update_same]
      · rw [Function.update_noteq hkv]
        exact hagree k (by
          rcases List.mem_cons.mp hk with h1 | h2
          · exact absurd h1 hkv
          · exact h2)

theorem clusterStep_sep_supported (fs : List NFactor) (vs : List Key)
    (hsup : ∀ f ∈ fs, SupportedF f) :
    SupportedF (clusterStep fs vs).2.1 := by
  show SupportedOn _ _
  rw [clusterStep_sep]
  refine sumOver_supported ?_ vs
  refine prodVal_supported ?_ ?_
  · intro g hg; exact hsup g (List.mem_filter.mp hg).1
  · intro g hg; exact subset_foldr_union (List.mem_map.mpr ⟨g, hg, rfl⟩)

/-- Modelled from the spec: the checked per-cluster elimination step
(sections 4.4, 7 and 9; the numeric elimination code is not under
`src/`).  A degenerate input, i.e. a marginal row summing to zero, is
reported as a distinct indeterminate-system error value returned from
the step rather than by exception unwinding; otherwise the conditional
and separator factor are returned. -/
def eliminateChecked (fs : List NFactor) (vs : List Key) :
    Except ElimError (NFactor × NFactor) :=
  let r := clusterStep fs vs
  if (allAssignments (r.2.1.keys.sort (· ≤ ·))).any
      (fun a => decide (r.2.1.val a = 0)) then
    Except.error ElimError.indeterminateSystem
  else
    Except.ok (r.1, r.2.1)

/-- C4: a numerically degenerate cluster (an all-zero marginal row) is
reported by the elimination step as a distinct, catchable
indeterminate-system error carried as an explicit error value returned
from the step; a successful elimination never carries a zero marginal at
any assignment, and its conditional and separator factor multiply back
exactly to the cluster joint, so no NaN or garbage conditional is ever
returned. -/
theorem eliminate_degeneracy_reported (fs : List NFactor) (vs : List Key)
    (hsup : ∀ f ∈ fs, SupportedF f) :
    ((∃ a ∈ allAssignments ((clusterStep fs vs).2.1.keys.sort (· ≤ ·)),
        (clusterStep fs vs).2.1.val a = 0) →
      eliminateChecked fs vs = Except.error ElimError.indeterminateSystem) ∧
    (∀ c s, eliminateChecked fs vs = Except.ok (c, s) →
      (∀ x, s.val x ≠ 0) ∧
      (∀ x, c.val x * s.val x =
        prodVal (fs.filter fun f => touchesC f vs) x)) := by
  constructor
  · intro ⟨a, ha, hz⟩
    unfold eliminateChecked
    rw [if_pos]
    exact List.any_eq_true.mpr ⟨a, ha, decide_eq_true hz⟩
  · intro c s hok
    unfold eliminateChecked at hok
    by_cases hany : (allAssignments ((clusterStep fs vs).2.1.keys.sort (· ≤ ·))).any
        (fun a => decide ((clusterStep fs vs).2.1.val a = 0)) = true
    · rw [if_pos hany] at hok; cases hok
    · rw [if_neg hany] at hok
      obtain ⟨hc, hs⟩ : (clusterStep fs vs).1 = c ∧
          (clusterStep fs vs).2.1 = s := by
        injection hok with h
        exact ⟨congrArg Prod.fst h, congrArg Prod.snd h⟩
      subst hc
      subst hs
      have hany' := Bool.eq_false_iff.mpr hany
      have hnz : ∀ a ∈ allAssignments ((clusterStep fs vs).2.1.keys.sort (· ≤ ·)),
          (clusterStep fs vs).2.1.val a ≠ 0 := by
        intro a ha
        have h2 := List.any_eq_false.mp hany' a ha
        simpa using h2
      have hnzx : ∀ x, (clusterStep fs vs).2.1.val x ≠ 0 := by
        intro x
        obtain ⟨a, ha, hagree⟩ :=
          allAssignments_cover ((clusterStep fs vs).2.1.keys.sort (· ≤ ·)) x
        have hsupS := clusterStep_sep_supported fs vs hsup
        have hval : (clusterStep fs vs).2.1.val x =
            (clusterStep fs vs).2.1.val a := by
          refine hsupS x a ?_
          intro k hk
          exact (hagree k ((Finset.mem_sort _).mpr hk)).symm
        rw [hval]
        exact hnz a ha
      refine ⟨hnzx, ?_⟩
      intro x
      have hm := hnzx x
      rw [clusterStep_sep] at hm ⊢
      rw [clusterStep_cond]
      exact div_mul_cancel₀ _ hm
  
theorem clusterStep_example_val (a : Assignment) :
    (clusterStep [⟨{0}, fun _ => 1⟩] [0]).2.1.val a = 2 := by
  have hT : List.filter (fun f => touchesC f [0])
      [(⟨{0}, fun _ => 1⟩ : NFactor)] = [⟨{0}, fun _ => 1⟩] := by
    simp [touchesC]
  rw [clusterStep_sep]
  show sumOver [0] (prodVal (List.filter (fun f => touchesC f [0])
    [⟨{0}, fun _ => 1⟩])) a = 2
  rw [hT]
  show prodVal [⟨{0}, fun _ => 1⟩] (Function.update a 0 true) +
      prodVal [⟨{0}, fun _ => 1⟩] (Function.update a 0 false) = 2
  rw [prodVal_cons, prodVal_nil, prodVal_cons, prodVal_nil]
  norm_num

theorem eliminateChecked_example :
    eliminateChecked [⟨{0}, fun _ => 1⟩] [0] =
      Except.ok ((clusterStep [⟨{0}, fun _ => 1⟩] [0]).1,
        (clusterStep [⟨{0}, fun _ => 1⟩] [0]).2.1) := by
  have hcond : (allAssignments
      ((clusterStep [⟨{0}, fun _ => 1⟩] [0]).2.1.keys.sort (· ≤ ·))).any
      (fun a => decide ((clusterStep [⟨{0}, fun _ => 1⟩] [0]).2.1.val a = 0))
      = false := by
    rw [List.any_eq_false]
    intro a ha
    simp [clusterStep_example_val a]
  simp only [eliminateChecked]
  rw [hcond]
  rfl

theorem eliminate_degeneracy_witness :
    ((clusterStep [⟨{0}, fun _ => 1⟩] [0]).2.1).val (fun _ => false) ≠ 0 :=
  ((eliminate_degeneracy_reported [⟨{0}, fun _ => 1⟩] [0]
      (fun f hf => by
        cases List.mem_singleton.mp hf
        exact fun x y h => rfl)).2
    (clusterStep [⟨{0}, fun _ => 1⟩] [0]).1
    (clusterStep [⟨{0}, fun _ => 1⟩] [0]).2.1
    eliminateChecked_example).1 (fun _ => false)

/-- Modelled from the spec: a factor graph is an ordered, possibly sparse
collection of factor handles, where a null entry stands for a removed
factor (section 3; the `FactorGraph` container implementation is not
under `src/`). -/
abbrev FactorGraphL := List (Option NFactor)

/-- Modelled from the spec: appending a factor handle, one of the two
mutating operations of a factor graph (section 3). -/
def appendFactor (g : FactorGraphL) (f : NFactor) : FactorGraphL :=
  g ++ [some f]

/-- Modelled from the spec: erasing the factor at a position, the other
mutating operation, leaving a null handle (section 3). -/
def eraseFactor (g : FactorGraphL) (i : Nat) : FactorGraphL := g.set i none

/-- The non-null factor handles of a graph, in order. -/
def activeFactors (g : FactorGraphL) : List NFactor := g.filterMap id

/-- Modelled from the spec: sequential elimination as a state-passing
operation on the graph: it reads the handles, produces the conditionals
and remaining factors, and returns the graph state it leaves behind
(sections 3 and 4.5; the elimination engine is not under `src/`). -/
def eliminateSequentialOp (ord : List Key) (g : FactorGraphL) :
    (List NFactor × List NFactor) × FactorGraphL :=
  (elimGrouped (seqGroups ord) (activeFactors g), g)

/-- Modelled from the spec: multifrontal (clustered) elimination as a
state-passing operation on the graph (sections 3 and 4.6). -/
def eliminateMultifrontalOp (cs : List (List Key)) (g : FactorGraphL) :
    (List NFactor × List NFactor) × FactorGraphL :=
  (elimGrouped cs (activeFactors g), g)

/-- C5: running sequential or multifrontal elimination leaves the input
factor graph unchanged: the graph state left by the elimination operation
is the input graph, with the same length and the same factor handle at
every position; only `appendFactor` and `eraseFactor` produce a
different graph. -/
theorem elimination_preserves_graph (g : FactorGraphL) (ord : List Key)
    (cs : List (List Key)) :
    (eliminateSequentialOp ord g).2 = g ∧
    (eliminateMultifrontalOp cs g).2 = g ∧
    (eliminateSequentialOp ord g).2.length = g.length ∧
    (∀ i : Nat, (eliminateSequentialOp ord g).2[i]? = g[i]?) ∧
    (∀ i : Nat, (eliminateMultifrontalOp cs g).2[i]? = g[i]?) :=
  ⟨rfl, rfl, rfl, fun _ => rfl, fun _ => rfl⟩

/-- Modelled from the spec: the variable index maps each key to the
ordered positions of the factors touching it, keys in first-insertion
order (sections 2 and 4.1; the `VariableIndex` implementation is not
under `src/`). -/
abbrev VariableIndexL := List (Key × List Nat)

/-- The indexed keys, in insertion order. -/
def viKeys (vi : VariableIndexL) : List Key := vi.map Prod.fst

/-- Records one (key, factor position) incidence. -/
def addIncidence (vi : VariableIndexL) (k : Key) (pos : Nat) :
    VariableIndexL :=
  match vi with
  | [] => [(k, [pos])]
  | e :: rest =>
    if e.1 = k then (e.1, e.2 ++ [pos]) :: rest
    else e :: addIncidence rest k pos

/-- Modelled from the spec: builds the variable index by scanning every
factor of the graph once (section 4.1). -/
def buildVariableIndex (g : FactorGraphL) : VariableIndexL :=
  g.enum.foldl (fun vi p =>
    match p.2 with
    | none => vi
    | some f =>
      (f.keys.sort (· ≤ ·)).foldl (fun vi2 k => addIncidence vi2 k p.1) vi)
    []

/-- The key set of the factor at a position, recovered from the index. -/
def keysOfFactor (vi : VariableIndexL) (p : Nat) : Finset Key :=
  ((vi.filter fun e => decide (p ∈ e.2)).map Prod.fst).toFinset

/-- All factor positions recorded in the index. -/
def factorPositions (vi : VariableIndexL) : List Nat :=
  ((vi.map Prod.snd).flatten).dedup

/-- The symbolic factor key sets recorded in the index. -/
def viFactorSets (vi : VariableIndexL) : List (Finset Key) :=
  (factorPositions vi).map (keysOfFactor vi)

/-- Whether two keys co-occur in some current factor or fill-in set. -/
def adjacentIn (fs : List (Finset Key)) (a b : Key) : Bool :=
  fs.any (fun f => decide (a ∈ f) && decide (b ∈ f))

/-- Modelled from the spec: the number of new fill-in edges that
eliminating `v` would create in the elimination graph (section 4.2). -/
def fillIn (fs : List (Finset Key)) (v : Key) : Nat :=
  let nb := ((jointOf fs v).erase v).sort (· ≤ ·)
  (nb.map (fun a => (nb.filter (fun b =>
    decide (a < b) && !(adjacentIn fs a b))).length)).sum

/-- Modelled from the spec: greedy choice of the remaining variable with
minimum fill-in, ties broken by the smaller key value (section 4.2). -/
def pickMinFill (fs : List (Finset Key)) : List Key → Option Key
  | [] => none
  | v :: rest =>
    match pickMinFill fs rest with
    | none => some v
    | some w =>
      if fillIn fs v < fillIn fs w ∨
          (fillIn fs v = fillIn fs w ∧ v < w) then some v else some w

/-- Greedy fill-in-minimizing elimination, fuelled by the number of
remaining variables. -/
def colamdOrder : Nat → List (Finset Key) → List Key → List Key
  | 0, _, _ => []
  | fuel + 1, fs, remaining =>
    match pickMinFill fs remaining with
    | none => []
    | some v => v :: colamdOrder fuel (symElimStep fs v).2 (remaining.erase v)

/-- Modelled from the spec: the fill-in-minimizing (COLAMD-style)
ordering strategy (section 4.2; the ordering code is not under
`src/`). -/
def colamdOrdering (vi : VariableIndexL) : List Key :=
  colamdOrder (viKeys vi).length (viFactorSets vi) (viKeys vi)

/-- The keys of `a` adjacent to some key of `b` through a factor. -/
def adjacentAcross (fs : List (Finset Key)) (a b : List Key) : List Key :=
  a.filter (fun v => fs.any (fun f => decide (v ∈ f) &&
    b.any (fun w => decide (w ∈ f))))

/-- Modelled from the spec: a nested-dissection style ordering: the key
list is split into two halves, the left-half keys adjacent to the right
half form the separator and are ordered last, and the interiors are
ordered recursively before it (section 4.2; METIS itself is an external
library). -/
def ndOrder : Nat → List (Finset Key) → List Key → List Key
  | 0, _, ks => ks
  | fuel + 1, fs, ks =>
    if ks.length ≤ 2 then ks
    else
      let half := ks.length / 2
      let left := ks.take half
      let right := ks.drop half
      let sepKs := adjacentAcross fs left right
      ndOrder fuel fs (left.filter (fun v => !(sepKs.contains v))) ++
        ndOrder fuel fs right ++ sepKs

/-- Modelled from the spec: the nested-dissection (METIS-style) ordering
strategy (section 4.2). -/
def metisOrdering (vi : VariableIndexL) : List Key :=
  ndOrder (viKeys vi).length (viFactorSets vi) (viKeys vi)

/-- The interchangeable ordering strategies (section 4.2). -/
inductive OrderingStrategy
  | colamd
  | metis
  | natural
  | custom (ord : List Key)
deriving DecidableEq

/-- A reportable configuration error: an invalid custom ordering. -/
inductive OrderingError
  | invalidCustom
deriving DecidableEq

/-- Modelled from the spec: computes an elimination ordering from a
variable index under the chosen strategy; a custom ordering is validated
for uniqueness and for covering exactly the indexed variables (section
4.2; the ordering code is not under `src/`). -/
def computeOrdering (vi : VariableIndexL) :
    OrderingStrategy → Except OrderingError (List Key)
  | OrderingStrategy.colamd => Except.ok (colamdOrdering vi)
  | OrderingStrategy.metis => Except.ok (metisOrdering vi)
  | OrderingStrategy.natural => Except.ok (viKeys vi)
  | OrderingStrategy.custom ord =>
    if ord.Nodup ∧ ord.toFinset = (viKeys vi).toFinset then Except.ok ord
    else Except.error OrderingError.invalidCustom

/-- C6: ordering computation is deterministic: two invocations of
`computeOrdering` on the same variable index with the same strategy
return identical results, and any two returned orderings agree element
for element. -/
theorem computeOrdering_deterministic (vi₁ vi₂ : VariableIndexL)
    (s₁ s₂ : OrderingStrategy) (hv : vi₁ = vi₂) (hs : s₁ = s₂) :
    computeOrdering vi₁ s₁ = computeOrdering vi₂ s₂ ∧
    ∀ o₁ o₂, computeOrdering vi₁ s₁ = Except.ok o₁ →
      computeOrdering vi₂ s₂ = Except.ok o₂ →
      o₁.length = o₂.length ∧ ∀ i : Nat, o₁[i]? = o₂[i]? := by
  subst hv
  subst hs
  refine ⟨rfl, ?_⟩
  intro o₁ o₂ h1 h2
  rw [h1] at h2
  injection h2 with h
  subst h
  exact ⟨rfl, fun i => rfl⟩

theorem computeOrdering_deterministic_witness :
    computeOrdering [(0, [0])] OrderingStrategy.natural =
      computeOrdering [(0, [0])] OrderingStrategy.natural :=
  (computeOrdering_deterministic [(0, [0])] [(0, [0])]
    OrderingStrategy.natural OrderingStrategy.natural rfl rfl).1

/-- Continuous variable values (the `VectorValues` part of
`HybridValues`), one real per continuous coordinate. -/
abbrev CVals := Nat → ℝ

/-- Discrete variable values (the `DiscreteValues` part of
`HybridValues`). -/
abbrev DVals := Nat → Nat

/-- The `HybridValues` argument of the `HybridConditional` operations:
a continuous part and a discrete part. -/
structure HybridValuesM where
  continuous : CVals
  discrete : DVals

/-- The data of a wrapped `GaussianConditional` needed by the dispatch in
`HybridConditional.cpp`: its `error` and `logProbability` on continuous
values and its `negLogConstant`. -/
structure GaussianConditionalM where
  errorFn : CVals → ℝ
  logProbabilityFn : CVals → ℝ
  negLogConstantV : ℝ

/-- The data of a wrapped `DiscreteConditional` needed by the dispatch:
its `error`, `logProbability` and `errorTree` on discrete values and its
`negLogConstant`. -/
structure DiscreteConditionalM where
  errorFn : DVals → ℝ
  logProbabilityFn : DVals → ℝ
  errorTreeV : DVals → ℝ
  negLogConstantV : ℝ

/-- The data of a wrapped `HybridGaussianConditional` needed by the
dispatch. -/
structure HybridGaussianConditionalM where
  errorFn : HybridValuesM → ℝ
  logProbabilityFn : HybridValuesM → ℝ
  errorTreeFn : CVals → DVals → ℝ
  negLogConstantV : ℝ

/-- The possible contents of the `inner_` pointer of a
`HybridConditional`: one of the three handled conditional families, or
some other factor type none of the `asGaussian`/`asHybrid`/`asDiscrete`
casts accepts. -/
inductive InnerConditional
  | gaussian (g : GaussianConditionalM)
  | discrete (d : DiscreteConditionalM)
  | hybrid (h : HybridGaussianConditionalM)
  | unhandledFactor

/-- The type-erased conditional wrapper of `HybridConditional.cpp`: the
`inner_` pointer may also be absent. -/
structure HybridConditionalM where
  inner : Option InnerConditional

/-- The runtime error thrown by the dispatch functions of
`HybridConditional.cpp` when the conditional type is not handled,
modelled as an explicit error result. -/
inductive HCError
  | runtimeErr
deriving DecidableEq

/-- `HybridConditional::error` (HybridConditional.cpp lines 115-125):
dispatches to the Gaussian conditional on the continuous values, to the
hybrid-Gaussian conditional on the full hybrid values, or to the discrete
conditional on the discrete values, and otherwise throws a runtime
error. -/
def HybridConditionalM.error (hc : HybridConditionalM)
    (v : HybridValuesM) : Except HCError ℝ :=
  match hc.inner with
  | some (InnerConditional.gaussian g) => Except.ok (g.errorFn v.continuous)
  | some (InnerConditional.hybrid h) => Except.ok (h.errorFn v)
  | some (InnerConditional.discrete d) => Except.ok (d.errorFn v.discrete)
  | _ => Except.error HCError.runtimeErr

/-- `HybridConditional::errorTree` (HybridConditional.cpp lines 128-139):
a Gaussian conditional yields a constant tree of its error at the
continuous values; otherwise dispatches or throws. -/
def HybridConditionalM.errorTree (hc : HybridConditionalM)
    (cv : CVals) : Except HCError (DVals → ℝ) :=
  match hc.inner with
  | some (InnerConditional.gaussian g) => Except.ok (fun _ => g.errorFn cv)
  | some (InnerConditional.hybrid h) => Except.ok (h.errorTreeFn cv)
  | some (InnerConditional.discrete d) => Except.ok d.errorTreeV
  | _ => Except.error HCError.runtimeErr

/-- `HybridConditional::logProbability` (HybridConditional.cpp lines
142-152): dispatches like `error`, or throws. -/
def HybridConditionalM.logProbability (hc : HybridConditionalM)
    (v : HybridValuesM) : Except HCError ℝ :=
  match hc.inner with
  | some (InnerConditional.gaussian g) =>
    Except.ok (g.logProbabilityFn v.continuous)
  | some (InnerConditional.hybrid h) => Except.ok (h.logProbabilityFn v)
  | some (InnerConditional.discrete d) =>
    Except.ok (d.logProbabilityFn v.discrete)
  | _ => Except.error HCError.runtimeErr

/-- `HybridConditional::negLogConstant` (HybridConditional.cpp lines
155-165): dispatches to the wrapped conditional, or throws. -/
def HybridConditionalM.negLogConstant (hc : HybridConditionalM) :
    Except HCError ℝ :=
  match hc.inner with
  | some (InnerConditional.gaussian g) => Except.ok g.negLogConstantV
  | some (InnerConditional.hybrid h) => Except.ok h.negLogConstantV
  | some (InnerConditional.discrete d) => Except.ok d.negLogConstantV
  | _ => Except.error HCError.runtimeErr

/-- `HybridConditional::evaluate` (HybridConditional.cpp lines 168-170):
the exponential of `logProbability` at the same values. -/
noncomputable def HybridConditionalM.evaluate (hc : HybridConditionalM)
    (v : HybridValuesM) : Except HCError ℝ :=
  (hc.logProbability v).map Real.exp

/-- C8: at every hybrid assignment at which `logProbability` is defined
(the wrapped conditional is Gaussian, hybrid-Gaussian or discrete),
`evaluate` returns exactly the exponential of `logProbability`. -/
theorem evaluate_eq_exp_logProbability (hc : HybridConditionalM)
    (v : HybridValuesM) (p : ℝ)
    (h : hc.logProbability v = Except.ok p) :
    hc.evaluate v = Except.ok (Real.exp p) := by
  unfold HybridConditionalM.evaluate
  rw [h]
  rfl

theorem evaluate_eq_exp_logProbability_witness :
    HybridConditionalM.evaluate
        ⟨some (InnerConditional.gaussian ⟨fun _ => 0, fun _ => 0, 0⟩)⟩
        ⟨fun _ => 0, fun _ => 0⟩ =
      Except.ok (Real.exp 0) :=
  evaluate_eq_exp_logProbability
    ⟨some (InnerConditional.gaussian ⟨fun _ => 0, fun _ => 0, 0⟩)⟩
    ⟨fun _ => 0, fun _ => 0⟩ 0 rfl

/-- C9: `HybridConditional::error` of a purely continuous (Gaussian)
wrapped conditional depends only on the continuous part of the values,
and of a purely discrete wrapped conditional only on the discrete
part. -/
theorem error_noninterference (hc : HybridConditionalM)
    (v₁ v₂ : HybridValuesM) :
    ((∃ g, hc.inner = some (InnerConditional.gaussian g)) →
      v₁.continuous = v₂.continuous → hc.error v₁ = hc.error v₂) ∧
    ((∃ d, hc.inner = some (InnerConditional.discrete d)) →
      v₁.discrete = v₂.discrete → hc.error v₁ = hc.error v₂) := by
  constructor
  · intro ⟨g, hg⟩ hv
    unfold HybridConditionalM.error
    rw [hg, hv]
  · intro ⟨d, hd⟩ hv
    unfold HybridConditionalM.error
    rw [hd, hv]

theorem error_noninterference_witness :
    HybridConditionalM.error
        ⟨some (InnerConditional.gaussian ⟨fun _ => 0, fun _ => 0, 0⟩)⟩
        ⟨fun _ => 0, fun _ => 0⟩ =
      HybridConditionalM.error
        ⟨some (InnerConditional.gaussian ⟨fun _ => 0, fun _ => 0, 0⟩)⟩
        ⟨fun _ => 0, fun _ => 1⟩ :=
  (error_noninterference
    ⟨some (InnerConditional.gaussian ⟨fun _ => 0, fun _ => 0, 0⟩)⟩
    ⟨fun _ => 0, fun _ => 0⟩ ⟨fun _ => 0, fun _ => 1⟩).1
    ⟨⟨fun _ => 0, fun _ => 0, 0⟩, rfl⟩ rfl

/-- C10: when the inner conditional is absent or not one of the three
handled families, `error`, `errorTree`, `logProbability` and
`negLogConstant` all fail with a runtime error instead of returning a
value. -/
theorem unhandled_inner_errors (hc : HybridConditionalM)
    (h : hc.inner = none ∨
      hc.inner = some InnerConditional.unhandledFactor) :
    (∀ v, hc.error v = Except.error HCError.runtimeErr) ∧
    (∀ cv, hc.errorTree cv = Except.error HCError.runtimeErr) ∧
    (∀ v, hc.logProbability v = Except.error HCError.runtimeErr) ∧
    hc.negLogConstant = Except.error HCError.runtimeErr := by
  rcases h with h | h
  · refine ⟨fun v => ?_, fun cv => ?_, fun v => ?_, ?_⟩ <;>
      simp [HybridConditionalM.error, HybridConditionalM.errorTree,
        HybridConditionalM.logProbability, HybridConditionalM.negLogConstant,
        h]
  · refine ⟨fun v => ?_, fun cv => ?_, fun v => ?_, ?_⟩ <;>
      simp [HybridConditionalM.error, HybridConditionalM.errorTree,
        HybridConditionalM.logProbability, HybridConditionalM.negLogConstant,
        h]

theorem unhandled_inner_errors_witness :
    HybridConditionalM.negLogConstant ⟨none⟩ =
      Except.error HCError.runtimeErr :=
  (unhandled_inner_errors ⟨none⟩ (Or.inl rfl)).2.2.2
